import Mathlib

/-!
Shallow embedding of the driftscan cylinder-telescope code
(`src/cylsim/cylinder.py` and `src/cylsim/hputil.py`) and verification of
the specification claims about it.

Modelling conventions: numpy float arrays are idealised as lists of
rationals where only ordering and exact arithmetic matter (the half-plane
fold and the baseline reduction) and as lists of reals where pi, square
roots or logarithms enter (the bandlimit computations); machine integers
are `Int`; vectorised numpy operations become `List.map` / `List.zipWith`;
a raised Python exception becomes an `Except.error` value.
-/

namespace Driftscan

/-- Use the `DecidableEq`-derived boolean equality on coordinate pairs, so
that counting lemmas from the library apply verbatim. -/
instance (priority := 2000) instBEqRatPair : BEq (ℚ × ℚ) := instBEqOfDecidableEq

/-! ## Half-plane folding and baseline reduction (cylinder.py) -/

/-- First `np.where` pass of `map_half_plane` (cylinder.py line 20): negate
the rows whose first coordinate is negative. -/
def halfPlaneStep1 (v : ℚ × ℚ) : ℚ × ℚ := if v.1 < 0 then -v else v

/-- Second `np.where` pass (cylinder.py line 21): negate the rows whose first
coordinate is exactly zero and whose second coordinate is below 1. -/
def halfPlaneStep2 (v : ℚ × ℚ) : ℚ × ℚ := if v.1 = 0 ∧ v.2 < 1 then -v else v

/-- `map_half_plane` (cylinder.py lines 19-23): the two vectorised `np.where`
passes applied to the whole array of separation vectors. -/
def map_half_plane (arr : List (ℚ × ℚ)) : List (ℚ × ℚ) :=
  (arr.map halfPlaneStep1).map halfPlaneStep2

/-- The per-row action of `map_half_plane`; both passes composed. -/
def canonical_baseline (v : ℚ × ℚ) : ℚ × ℚ := halfPlaneStep2 (halfPlaneStep1 v)

theorem map_half_plane_eq_map (arr : List (ℚ × ℚ)) :
    map_half_plane arr = arr.map canonical_baseline := by
  rw [map_half_plane, List.map_map]; rfl

/-- `np.triu_indices(n, k)`: the positions (i, j) with j ≥ i + k of an n × n
array, in row-major order. -/
def triu_indices (n k : ℕ) : List (ℕ × ℕ) :=
  (List.range n).flatMap fun i => ((List.range n).drop (i + k)).map fun j => (i, j)

/-- numpy orders complex values lexicographically by (real, imaginary); the
separations are packed as `bl1[...,0] + 1j * bl1[...,1]` before `np.unique`. -/
def complexLe (u v : ℚ × ℚ) : Bool := decide (u.1 < v.1 ∨ (u.1 = v.1 ∧ u.2 ≤ v.2))

/-- The first component of `np.unique(..., return_index=True,
return_inverse=True)`: the sorted list of distinct values. -/
def uniqueValues (l : List (ℚ × ℚ)) : List (ℚ × ℚ) := l.dedup.mergeSort complexLe

/-- `np.bincount(inv)` for the `return_inverse` output of `np.unique`: entry
t counts how many elements of the input equal the t-th unique value. -/
def redundancyOf (l : List (ℚ × ℚ)) : List ℕ := (uniqueValues l).map fun v => l.count v

/-- `CylinderTelescope._get_unique` (cylinder.py lines 634-666): fold the
separations of all feed pairs into the half plane; the distinct folded
values are the unique baselines, `feedpairs[:, ind]` retains the feed pair
at the first occurrence of each value, and `np.bincount(inv)` counts the
redundancy of each value. -/
def get_unique (feedpositions : List (ℚ × ℚ)) (feedpairs : List (ℕ × ℕ)) :
    List (ℕ × ℕ) × List ℕ :=
  let bl1 := map_half_plane (feedpairs.map fun p =>
    feedpositions.getD p.1 0 - feedpositions.getD p.2 0)
  (((uniqueValues bl1).map fun v => feedpairs.getD (bl1.indexOf v) (0, 0)),
    redundancyOf bl1)

/-- `TransitTelescope.calculate_baselines` (cylinder.py lines 225-238)
specialised to the cylinder uniqueness rule: the feed pairs are the strict
upper-triangle index pairs, reduced by `get_unique`; the stored baselines
are the separations of the representative pairs.  Returns (baselines,
redundancy, feedpairs). -/
def calculate_baselines (feedpositions : List (ℚ × ℚ)) :
    List (ℚ × ℚ) × List ℕ × List (ℕ × ℕ) :=
  let fpairs := triu_indices feedpositions.length 1
  let up := get_unique feedpositions fpairs
  (up.1.map (fun p => feedpositions.getD p.1 0 - feedpositions.getD p.2 0),
    up.2, up.1)

/-! Supporting lemmas for the baseline-reduction claims. -/

theorem uniqueValues_perm (l : List (ℚ × ℚ)) : (uniqueValues l).Perm l.dedup :=
  List.mergeSort_perm l.dedup complexLe

theorem uniqueValues_nodup (l : List (ℚ × ℚ)) : (uniqueValues l).Nodup :=
  ((uniqueValues_perm l).nodup_iff).mpr (List.nodup_dedup l)

theorem mem_uniqueValues {l : List (ℚ × ℚ)} {v : ℚ × ℚ} (h : v ∈ l) :
    v ∈ uniqueValues l :=
  ((uniqueValues_perm l).mem_iff).mpr (List.mem_dedup.mpr h)

theorem count_uniqueValues {l : List (ℚ × ℚ)} {v : ℚ × ℚ} (h : v ∈ l) :
    (uniqueValues l).count v = 1 :=
  List.count_eq_one_of_mem (uniqueValues_nodup l) (mem_uniqueValues h)

theorem redundancyOf_sum (l : List (ℚ × ℚ)) : (redundancyOf l).sum = l.length := by
  have hperm : ((uniqueValues l).map fun v => l.count v).Perm
      (l.dedup.map fun v => l.count v) := (uniqueValues_perm l).map _
  have := List.sum_map_count_dedup_eq_length l
  calc (redundancyOf l).sum = (l.dedup.map fun v => l.count v).sum := hperm.sum_eq
    _ = l.length := this

theorem range_sum (n : ℕ) : (List.range n).sum = n * (n - 1) / 2 := by
  have h1 : ((List.range n).map fun i => i).sum = ∑ i ∈ Finset.range n, i := rfl
  have h2 : (List.range n).map (fun i => i) = List.range n := List.map_id' _
  rw [← h2, h1, Finset.sum_range_id]

theorem triu_indices_length (n : ℕ) : (triu_indices n 1).length = n * (n - 1) / 2 := by
  have h1 : (triu_indices n 1).length
      = ((List.range n).map fun i => n - 1 - i).sum := by
    rw [triu_indices, List.length_flatMap]
    congr 1
    apply List.map_congr_left
    intro i _
    simp [Nat.sub_sub, Nat.add_comm]
  have h2 : (List.range n).reverse = (List.range n).map fun i => n - 1 - i := by
    nth_rewrite 1 [List.range_eq_range']
    rw [List.reverse_range']
    simp
  rw [h1, ← h2, List.sum_reverse, range_sum]

/-- C3: for every feed geometry, the baseline reduction maps every unordered
feed pair to exactly one canonical baseline (the folded separation of each
pair occurs exactly once in the unique-baseline list), and the redundancy
counts sum to nfeed * (nfeed - 1) / 2. -/
theorem calculate_baselines_partition (pos : List (ℚ × ℚ)) :
    (∀ p ∈ triu_indices pos.length 1,
        (uniqueValues (map_half_plane ((triu_indices pos.length 1).map fun q =>
            pos.getD q.1 0 - pos.getD q.2 0))).count
          (canonical_baseline (pos.getD p.1 0 - pos.getD p.2 0)) = 1) ∧
    (calculate_baselines pos).2.1.sum = pos.length * (pos.length - 1) / 2 := by
  constructor
  · intro p hp
    apply count_uniqueValues
    rw [map_half_plane_eq_map]
    exact List.mem_map.mpr ⟨_, List.mem_map.mpr ⟨p, hp, rfl⟩, rfl⟩
  · show (redundancyOf _).sum = _
    rw [redundancyOf_sum, map_half_plane_eq_map, List.length_map, List.length_map,
      triu_indices_length]

/-! ## Pixelisation resolution (hputil.py lines 34-48) -/

/-- `hputil.nside_for_lmax`:
`int(2 ** (accuracy_boost + np.ceil(np.log((lmax + 1) / 3.0) / np.log(2.0))))`.
`log(x)/log(2)` is the base-2 logarithm and `int` truncates the positive
float power, i.e. takes its floor. -/
noncomputable def nside_for_lmax (lmax : ℕ) (accuracy_boost : ℕ) : ℤ :=
  ⌊(2 : ℝ) ^ ((accuracy_boost : ℤ) + ⌈Real.logb 2 (((lmax : ℝ) + 1) / 3)⌉)⌋

theorem range_drop_eq (n m : ℕ) : (List.range n).drop m = List.range' m (n - m) := by
  apply List.ext_getElem
  · simp
  · intro i h1 h2
    simp [List.getElem_drop, List.getElem_range, List.getElem_range']

theorem mem_range_drop {n m j : ℕ} (h : j ∈ (List.range n).drop m) :
    m ≤ j ∧ j < n := by
  rw [range_drop_eq, List.mem_range'] at h
  obtain ⟨i, hi, rfl⟩ := h
  omega

theorem rpow_two_eq_four : (2 : ℝ) ^ (2 : ℝ) = 4 := by
  have h := Real.rpow_natCast (2 : ℝ) 2
  rw [show ((2 : ℕ) : ℝ) = (2 : ℝ) from by norm_num] at h
  rw [h]
  norm_num

theorem ceil_logb_between {x : ℝ} (hx1 : 2 < x) (hx2 : x ≤ 4) :
    ⌈Real.logb 2 x⌉ = 2 := by
  have hx0 : (0 : ℝ) < x := by linarith
  rw [Int.ceil_eq_iff]
  constructor
  · push_cast
    have h := (Real.lt_logb_iff_rpow_lt one_lt_two hx0 (x := 1)).mpr
      (by rw [Real.rpow_one]; exact hx1)
    linarith
  · push_cast
    rw [Real.logb_le_iff_le_rpow one_lt_two hx0, rpow_two_eq_four]
    exact hx2

/-- C8 (counterexample): the resolution selection is not strictly monotone in
the bandlimit: bandlimits 6 and 7 both select nside 8 (with the default
accuracy boost 1). -/
theorem nside_for_lmax_not_strictMono :
    nside_for_lmax 6 1 = 8 ∧ nside_for_lmax 7 1 = 8 ∧
      ¬(nside_for_lmax 6 1 < nside_for_lmax 7 1) := by
  have h6 : nside_for_lmax 6 1 = 8 := by
    unfold nside_for_lmax
    rw [show (((6 : ℕ) : ℝ) + 1) / 3 = 7 / 3 from by norm_num,
      ceil_logb_between (by norm_num) (by norm_num),
      show ((1 : ℕ) : ℤ) + 2 = 3 from by norm_num,
      show (2 : ℝ) ^ (3 : ℤ) = ((8 : ℤ) : ℝ) from by norm_num,
      Int.floor_intCast]
  have h7 : nside_for_lmax 7 1 = 8 := by
    unfold nside_for_lmax
    rw [show (((7 : ℕ) : ℝ) + 1) / 3 = 8 / 3 from by norm_num,
      ceil_logb_between (by norm_num) (by norm_num),
      show ((1 : ℕ) : ℤ) + 2 = 3 from by norm_num,
      show (2 : ℝ) ^ (3 : ℤ) = ((8 : ℤ) : ℝ) from by norm_num,
      Int.floor_intCast]
  exact ⟨h6, h7, by rw [h6, h7]; omega⟩

/-- C8 (amended): the resolution selected for a bandlimit is monotone
(non-decreasing, not strictly increasing) in the bandlimit, for any
accuracy boost. -/
theorem nside_for_lmax_mono (boost : ℕ) {l1 l2 : ℕ} (h : l1 ≤ l2) :
    nside_for_lmax l1 boost ≤ nside_for_lmax l2 boost := by
  apply Int.floor_mono
  apply zpow_le_zpow_right₀ one_le_two
  have hc : ((l1 : ℝ) + 1) / 3 ≤ ((l2 : ℝ) + 1) / 3 := by
    have := (Nat.cast_le (α := ℝ)).mpr h
    linarith
  have hlog := Real.logb_le_logb_of_le (one_lt_two (α := ℝ))
    (x := ((l1 : ℝ) + 1) / 3) (by positivity) hc
  have := Int.ceil_mono hlog
  omega

/-- C8 witness: the monotonicity theorem applied at bandlimits 6 ≤ 7. -/
theorem nside_for_lmax_mono_witness :
    6 ≤ 7 ∧ nside_for_lmax 6 1 ≤ nside_for_lmax 7 1 :=
  ⟨by norm_num, nside_for_lmax_mono 1 (by norm_num)⟩

/-! ## Harmonic coefficient packing (hputil.py lines 51-149)

The coefficient dtype is arbitrary in the source (any numpy dtype carrying
`conj`); the embedding works over an arbitrary field with a star operation.
The factor `(-1)**0.5` appearing in `_make_half_alm` is the imaginary unit
for a complex dtype; it enters the embedding as an explicit parameter
`sqrtNegOne` (the round-trip theorem holds for every value of it). -/

/-- Entry (i, j) of a 2D array stored as a list of rows, 0 outside. -/
def get2d {α : Type} [Zero α] (a : List (List α)) (i j : ℕ) : α :=
  (a.getD i []).getD j 0

theorem getD_map_range {β : Type} (f : ℕ → β) {n i : ℕ} (d : β) (h : i < n) :
    ((List.range n).map f).getD i d = f i := by
  rw [List.getD_eq_getElem _ _ (by simp [h]), List.getElem_map, List.getElem_range]

section Alm

variable {α : Type} [Field α] [Star α]

/-- `hputil._make_full_alm` (lines 114-132): append (or prepend, if
`centered`) the negative orders `(-1)^m conj(a_{l, m})`, m = mmax-1 … 1, to
each row of a positive-order array. -/
def make_full_alm (alm_half : List (List α)) (centered : Bool) : List (List α) :=
  let mmax := (alm_half.headD []).length
  alm_half.map fun row =>
    let negRow := ((List.range mmax).drop 1).reverse.map fun k =>
      (-1 : α) ^ k * star (row.getD k 0)
    if centered then negRow ++ row else row ++ negRow

/-- The `(almarray.T)[np.triu_indices(lmax + 1)] = alm` assignment inside
`unpack_alm` (line 74): entry [l, m] of the zero-initialised square array
receives the coefficient paired with triangle position (m, l). -/
def unpackHalf (alm : List α) (lmax : ℕ) : List (List α) :=
  (List.range (lmax + 1)).map fun l =>
    (List.range (lmax + 1)).map fun m =>
      ((((triu_indices (lmax + 1) 0).zip alm).lookup (m, l)).getD 0)

/-- `hputil.unpack_alm` (lines 51-79). -/
def unpack_alm (alm : List α) (lmax : ℕ) (fullm : Bool) : List (List α) :=
  if fullm then make_full_alm (unpackHalf alm lmax) false else unpackHalf alm lmax

/-- `hputil._make_half_alm` (lines 135-149): keep column 0 and scale the
remaining columns by `0.5 * (1 + (-1)**0.5)`; `sqrtNegOne` stands for the
numpy value of `(-1)**0.5` at the coefficient dtype. -/
def make_half_alm (sqrtNegOne : α) (alm_full : List (List α)) : List (List α) :=
  let lside := alm_full.length
  (List.range lside).map fun l =>
    (List.range lside).map fun mi =>
      if mi = 0 then get2d alm_full l 0
      else (1 / 2 : α) * (get2d alm_full l mi + sqrtNegOne * get2d alm_full l mi)

/-- `hputil.pack_alm` (lines 82-110): detect a full-width input by the test
`2 * ncols - 1 == nrows`, default `lmax` from the number of rows (Python
treats both `None` and `0` as unset), then read the triangle back through
the transpose. -/
def pack_alm (sqrtNegOne : α) (almarray : List (List α)) (lmax : Option ℕ) : List α :=
  let almarray2 := if 2 * (((almarray.headD []).length : ℤ)) - 1 = almarray.length
    then make_half_alm sqrtNegOne almarray else almarray
  let lmaxv := match lmax with
    | some (k + 1) => k + 1
    | _ => almarray2.length - 1
  (triu_indices (lmaxv + 1) 0).map fun p => get2d almarray2 p.2 p.1

end Alm

/-! Supporting lemmas for the packing round trip (claim C9). -/

theorem mem_triu_indices {n k : ℕ} {p : ℕ × ℕ} (h : p ∈ triu_indices n k) :
    p.1 < n ∧ p.2 < n ∧ p.1 + k ≤ p.2 := by
  rw [triu_indices, List.mem_flatMap] at h
  obtain ⟨i, hi, hp⟩ := h
  rw [List.mem_map] at hp
  obtain ⟨j, hj, rfl⟩ := hp
  have hj2 := mem_range_drop hj
  rw [List.mem_range] at hi
  exact ⟨hi, hj2.2, hj2.1⟩

theorem triu_indices_nodup (n k : ℕ) : (triu_indices n k).Nodup := by
  rw [triu_indices, List.nodup_flatMap]
  constructor
  · intro i _
    exact ((List.drop_sublist _ _).nodup (List.nodup_range n)).map
      (fun a b hab => congrArg Prod.snd hab)
  · apply (List.pairwise_lt_range n).imp
    intro a b hab
    intro x hxa hxb
    rw [List.mem_map] at hxa hxb
    obtain ⟨j, _, rfl⟩ := hxa
    obtain ⟨j2, _, h2⟩ := hxb
    have := congrArg Prod.fst h2
    simp at this
    omega

theorem map_lookup_zip {κ β : Type} [BEq κ] [LawfulBEq κ] (d : β) :
    ∀ (keys : List κ) (vals : List β), keys.Nodup → keys.length = vals.length →
      (keys.map fun k => (((keys.zip vals).lookup k).getD d)) = vals := by
  intro keys
  induction keys with
  | nil =>
    intro vals _ hlen
    simp at hlen ⊢
    exact List.eq_nil_of_length_eq_zero hlen.symm
  | cons k ks ih =>
    intro vals hnd hlen
    match vals with
    | [] => simp at hlen
    | v :: vs =>
      rw [List.zip_cons_cons, List.map_cons]
      have hk : (List.lookup k ((k, v) :: ks.zip vs)).getD d = v := by
        rw [List.lookup_cons]
        simp
      have hnotmem : k ∉ ks := (List.nodup_cons.mp hnd).1
      have htail : (ks.map fun k2 => ((List.lookup k2 ((k, v) :: ks.zip vs)).getD d)) = vs := by
        have hcongr : (ks.map fun k2 => ((List.lookup k2 ((k, v) :: ks.zip vs)).getD d))
            = ks.map fun k2 => ((List.lookup k2 (ks.zip vs)).getD d) := by
          apply List.map_congr_left
          intro a ha
          have hne : (a == k) = false := by
            rw [beq_eq_false_iff_ne]
            intro hEq
            exact hnotmem (hEq ▸ ha)
          rw [List.lookup_cons, hne]
        rw [hcongr, ih vs (List.nodup_cons.mp hnd).2 (by simpa using hlen)]
      rw [hk, htail]

theorem unpackHalf_get2d {α : Type} [Field α] (alm : List α) (lmax : ℕ)
    {m l : ℕ} (hm : m < lmax + 1) (hl : l < lmax + 1) :
    get2d (unpackHalf alm lmax) l m
      = ((((triu_indices (lmax + 1) 0).zip alm).lookup (m, l)).getD 0) := by
  rw [unpackHalf, get2d, getD_map_range _ _ hl, getD_map_range _ _ hm]

theorem make_full_get2d {α : Type} [Field α] [Star α] (alm : List α) (lmax : ℕ)
    {m l : ℕ} (hm : m < lmax + 1) (hl : l < lmax + 1) :
    get2d (make_full_alm (unpackHalf alm lmax) false) l m
      = ((((triu_indices (lmax + 1) 0).zip alm).lookup (m, l)).getD 0) := by
  rw [make_full_alm, get2d, unpackHalf, List.map_map]
  rw [getD_map_range _ _ hl]
  simp only [Function.comp]
  rw [if_neg Bool.false_ne_true]
  rw [List.getD_append _ _ _ _ (by simpa using hm)]
  rw [getD_map_range _ _ hm]

theorem unpackHalf_headD_length {α : Type} [Field α] (alm : List α) (lmax : ℕ) :
    ((unpackHalf alm lmax).headD []).length = lmax + 1 := by
  rw [unpackHalf, List.range_succ_eq_map, List.map_cons]
  simp

theorem make_full_unpackHalf_length {α : Type} [Field α] [Star α]
    (alm : List α) (lmax : ℕ) :
    (make_full_alm (unpackHalf alm lmax) false).length = lmax + 1 := by
  simp [make_full_alm, unpackHalf]

theorem make_full_unpackHalf_headD_length {α : Type} [Field α] [Star α]
    (alm : List α) (lmax : ℕ) :
    ((make_full_alm (unpackHalf alm lmax) false).headD []).length = 2 * lmax + 1 := by
  rw [make_full_alm, unpackHalf_headD_length]
  rw [unpackHalf, List.range_succ_eq_map, List.map_cons, List.map_cons]
  simp [List.headD]
  omega

/-- C9: unpacking a triangular coefficient array into the full
positive/negative-order form and then extracting the non-negative-order
half through `pack_alm` reconstructs the original array exactly, for every
bandlimit and every coefficient list of the matching triangular length. -/
theorem pack_unpack_roundtrip {α : Type} [Field α] [Star α] (sqrtNegOne : α)
    (lmax : ℕ) (alm : List α)
    (h : alm.length = (triu_indices (lmax + 1) 0).length) :
    pack_alm sqrtNegOne (unpack_alm alm lmax true) none = alm := by
  rw [unpack_alm, if_pos rfl]
  match lmax with
  | 0 =>
    have h1 : (triu_indices 1 0).length = 1 := rfl
    rw [h1] at h
    obtain ⟨a, rfl⟩ := List.length_eq_one.mp h
    rfl
  | Nat.succ k =>
    rw [pack_alm]
    have hcond : ¬(2 * ((((make_full_alm (unpackHalf alm (k + 1)) false).headD []).length : ℤ))
        - 1 = ((make_full_alm (unpackHalf alm (k + 1)) false).length : ℤ)) := by
      rw [make_full_unpackHalf_headD_length, make_full_unpackHalf_length]
      push_cast
      omega
    rw [if_neg (by exact_mod_cast hcond)]
    rw [make_full_unpackHalf_length]
    simp only [Nat.add_sub_cancel]
    have hpt : ((triu_indices (k + 1 + 1) 0).map fun p =>
          get2d (make_full_alm (unpackHalf alm (k + 1)) false) p.2 p.1)
        = (triu_indices (k + 1 + 1) 0).map fun p =>
          ((((triu_indices (k + 1 + 1) 0).zip alm).lookup p).getD 0) := by
      apply List.map_congr_left
      intro p hp
      have hb := mem_triu_indices hp
      rw [make_full_get2d alm (k + 1) (by omega) (by omega)]
    rw [hpt]
    exact map_lookup_zip 0 _ alm (triu_indices_nodup _ _) h.symm
    intro k2 hk2
    exact Option.noConfusion hk2

/-- C9 witness: the round trip applied to the rational triangular array
[1, 2, 3] at bandlimit 1. -/
theorem pack_unpack_roundtrip_witness :
    ([(1 : ℚ), 2, 3].length = (triu_indices 2 0).length) ∧
      pack_alm (0 : ℚ) (unpack_alm [(1 : ℚ), 2, 3] 1 true) none = [1, 2, 3] :=
  ⟨rfl, pack_unpack_roundtrip 0 1 [(1 : ℚ), 2, 3] rfl⟩

/-! ## Bandlimits (cylinder.py lines 26-49)

Wavelength-dependent float arithmetic is idealised over the reals;
`(x)**0.5` on the non-negative quantity `mmax**2 + (2 pi vmax)**2` is the
real square root. -/

/-- `max_lm(baselines, wavelengths, width)` (cylinder.py lines 26-49),
elementwise over broadcast baseline/wavelength arrays:
`umax = (|u| + width) / wavelength`, `vmax = |v| / wavelength`,
`mmax = ceil(2 pi umax)`, `lmax = ceil(sqrt(mmax^2 + (2 pi vmax)^2))`;
returns (lmax, mmax). -/
noncomputable def max_lm (baselines : List (ℝ × ℝ)) (wavelengths : List ℝ)
    (width : ℝ) : List ℤ × List ℤ :=
  let umax := List.zipWith (fun b wl => (|b.1| + width) / wl) baselines wavelengths
  let vmax := List.zipWith (fun b wl => |b.2| / wl) baselines wavelengths
  let mmax := umax.map fun u => ⌈2 * Real.pi * u⌉
  let lmax := List.zipWith
    (fun (m : ℤ) (v : ℝ) => ⌈Real.sqrt ((m : ℝ) ^ 2 + (2 * Real.pi * v) ^ 2)⌉) mmax vmax
  (lmax, mmax)

/-- Scalar form of the `mmax` component of `max_lm`. -/
noncomputable def mmax1 (b : ℝ × ℝ) (wl width : ℝ) : ℤ :=
  ⌈2 * Real.pi * ((|b.1| + width) / wl)⌉

/-- Scalar form of the `lmax` component of `max_lm`. -/
noncomputable def lmax1 (b : ℝ × ℝ) (wl width : ℝ) : ℤ :=
  ⌈Real.sqrt ((mmax1 b wl width : ℝ) ^ 2 + (2 * Real.pi * (|b.2| / wl)) ^ 2)⌉

theorem zipWith_zipWith_same {a b c d e : Type} (h : c → d → e) (f : a → b → c)
    (g : a → b → d) (l1 : List a) (l2 : List b) :
    List.zipWith h (List.zipWith f l1 l2) (List.zipWith g l1 l2)
      = List.zipWith (fun x y => h (f x y) (g x y)) l1 l2 := by
  induction l1 generalizing l2 with
  | nil => simp
  | cons x xs ih => cases l2 <;> simp [ih]

theorem max_lm_eq_zipWith (bs : List (ℝ × ℝ)) (ws : List ℝ) (w : ℝ) :
    max_lm bs ws w = (List.zipWith (fun b wl => lmax1 b wl w) bs ws,
      List.zipWith (fun b wl => mmax1 b wl w) bs ws) := by
  rw [max_lm]
  rw [List.map_zipWith, zipWith_zipWith_same]
  rfl

theorem max_lm_fst_getD (bs : List (ℝ × ℝ)) (ws : List ℝ) (w : ℝ) {i : ℕ}
    (hi : i < bs.length) (hlen : bs.length = ws.length) :
    (max_lm bs ws w).1.getD i 0 = lmax1 (bs.getD i (0, 0)) (ws.getD i 0) w := by
  rw [max_lm_eq_zipWith]
  have h1 : i < (List.zipWith (fun b wl => lmax1 b wl w) bs ws).length := by
    rw [List.length_zipWith]; omega
  rw [List.getD_eq_getElem _ _ h1, List.getElem_zipWith,
    List.getD_eq_getElem _ _ hi, List.getD_eq_getElem _ _ (by omega)]

theorem max_lm_snd_getD (bs : List (ℝ × ℝ)) (ws : List ℝ) (w : ℝ) {i : ℕ}
    (hi : i < bs.length) (hlen : bs.length = ws.length) :
    (max_lm bs ws w).2.getD i 0 = mmax1 (bs.getD i (0, 0)) (ws.getD i 0) w := by
  rw [max_lm_eq_zipWith]
  have h1 : i < (List.zipWith (fun b wl => mmax1 b wl w) bs ws).length := by
    rw [List.length_zipWith]; omega
  rw [List.getD_eq_getElem _ _ h1, List.getElem_zipWith,
    List.getD_eq_getElem _ _ hi, List.getD_eq_getElem _ _ (by omega)]

theorem mmax1_nonneg {b : ℝ × ℝ} {wl width : ℝ} (hwl : 0 < wl) (hw : 0 ≤ width) :
    0 ≤ mmax1 b wl width := by
  apply Int.ceil_nonneg
  have hb : (0 : ℝ) ≤ |b.1| := abs_nonneg _
  positivity

theorem lmax1_ge_mmax1 {b : ℝ × ℝ} {wl width : ℝ} (hwl : 0 < wl) (hw : 0 ≤ width) :
    mmax1 b wl width ≤ lmax1 b wl width := by
  have hm : (0 : ℝ) ≤ ((mmax1 b wl width : ℤ) : ℝ) := by
    exact_mod_cast mmax1_nonneg hwl hw
  have h1 : ((mmax1 b wl width : ℤ) : ℝ)
      ≤ Real.sqrt (((mmax1 b wl width : ℤ) : ℝ) ^ 2
        + (2 * Real.pi * (|b.2| / wl)) ^ 2) := by
    nth_rewrite 1 [show ((mmax1 b wl width : ℤ) : ℝ)
      = Real.sqrt (((mmax1 b wl width : ℤ) : ℝ) ^ 2) from (Real.sqrt_sq hm).symm]
    apply Real.sqrt_le_sqrt
    nlinarith [sq_nonneg (2 * Real.pi * (|b.2| / wl))]
  calc mmax1 b wl width = ⌈((mmax1 b wl width : ℤ) : ℝ)⌉ := (Int.ceil_intCast _).symm
    _ ≤ lmax1 b wl width := Int.ceil_mono h1

theorem mmax1_anti {b : ℝ × ℝ} {wl1 wl2 width : ℝ} (hwl1 : 0 < wl1)
    (hle : wl1 ≤ wl2) (hw : 0 ≤ width) :
    mmax1 b wl2 width ≤ mmax1 b wl1 width := by
  apply Int.ceil_mono
  have hb : (0 : ℝ) ≤ |b.1| := abs_nonneg _
  have hdiv : (|b.1| + width) / wl2 ≤ (|b.1| + width) / wl1 :=
    div_le_div_of_nonneg_left (by linarith) hwl1 hle
  nlinarith [Real.pi_pos]

theorem lmax1_anti {b : ℝ × ℝ} {wl1 wl2 width : ℝ} (hwl1 : 0 < wl1)
    (hle : wl1 ≤ wl2) (hw : 0 ≤ width) :
    lmax1 b wl2 width ≤ lmax1 b wl1 width := by
  apply Int.ceil_mono
  apply Real.sqrt_le_sqrt
  have hwl2 : 0 < wl2 := lt_of_lt_of_le hwl1 hle
  have hmono := mmax1_anti (b := b) hwl1 hle hw
  have hm2 : (0 : ℝ) ≤ ((mmax1 b wl2 width : ℤ) : ℝ) := by
    exact_mod_cast mmax1_nonneg hwl2 hw
  have hsq1 : (((mmax1 b wl2 width : ℤ) : ℝ)) ^ 2
      ≤ (((mmax1 b wl1 width : ℤ) : ℝ)) ^ 2 :=
    pow_le_pow_left₀ hm2 (by exact_mod_cast hmono) 2
  have hv : (0 : ℝ) ≤ |b.2| := abs_nonneg _
  have hdiv : |b.2| / wl2 ≤ |b.2| / wl1 := div_le_div_of_nonneg_left hv hwl1 hle
  have h0 : (0 : ℝ) ≤ 2 * Real.pi * (|b.2| / wl2) := by positivity
  have hmul : 2 * Real.pi * (|b.2| / wl2) ≤ 2 * Real.pi * (|b.2| / wl1) :=
    mul_le_mul_of_nonneg_left hdiv (by positivity)
  have hsq2 : (2 * Real.pi * (|b.2| / wl2)) ^ 2 ≤ (2 * Real.pi * (|b.2| / wl1)) ^ 2 :=
    pow_le_pow_left₀ h0 hmul 2
  linarith

/-- C10: elementwise, for positive wavelengths and non-negative receiver
width, `max_lm` returns a non-negative `mmax` and an `lmax` at least as
large, so an array dimensioned by `lmax` holds every order up to `mmax`. -/
theorem max_lm_order_bounds (bs : List (ℝ × ℝ)) (ws : List ℝ) (w : ℝ)
    (hws : ∀ wl ∈ ws, 0 < wl) (hw : 0 ≤ w) {i : ℕ} (hi : i < bs.length)
    (hlen : bs.length = ws.length) :
    0 ≤ (max_lm bs ws w).2.getD i 0 ∧
      (max_lm bs ws w).2.getD i 0 ≤ (max_lm bs ws w).1.getD i 0 := by
  have hwl : 0 < ws.getD i 0 := by
    apply hws
    rw [List.getD_eq_getElem _ _ (by omega)]
    exact List.getElem_mem _
  rw [max_lm_fst_getD bs ws w hi hlen, max_lm_snd_getD bs ws w hi hlen]
  exact ⟨mmax1_nonneg hwl hw, lmax1_ge_mmax1 hwl hw⟩

/-- C10 witness: the bound theorem applied to a single zero baseline at
wavelength 1 and width 0. -/
theorem max_lm_order_bounds_witness :
    (∀ wl ∈ [(1 : ℝ)], 0 < wl) ∧ (0 : ℝ) ≤ 0 ∧ (0 < 1) ∧
      (0 ≤ (max_lm [((0 : ℝ), 0)] [(1 : ℝ)] 0).2.getD 0 0 ∧
        (max_lm [((0 : ℝ), 0)] [(1 : ℝ)] 0).2.getD 0 0
          ≤ (max_lm [((0 : ℝ), 0)] [(1 : ℝ)] 0).1.getD 0 0) :=
  ⟨by norm_num, le_refl 0, by norm_num,
    max_lm_order_bounds [((0 : ℝ), 0)] [(1 : ℝ)] 0
      (by norm_num) (le_refl 0) (by norm_num) rfl⟩

/-- The m-bandlimit as the specification words it for claim C4 (refinement
comparison only; the source adds the FULL width): `ceil(2 pi (|u-component|
+ width/2) / wavelength)`. -/
noncomputable def spec_mmax1 (b : ℝ × ℝ) (wl width : ℝ) : ℤ :=
  ⌈2 * Real.pi * ((|b.1| + width / 2) / wl)⌉

/-- C4 (counterexample): at baseline (0, 0), wavelength pi and receiver
width 2, the code computes mmax = ceil(2 pi (0 + 2) / pi) = 4, while the
half-width formula in the claim gives 2. -/
theorem max_lm_width_counterexample :
    (max_lm [((0 : ℝ), 0)] [Real.pi] 2).2.getD 0 0 = 4 ∧
      spec_mmax1 ((0 : ℝ), 0) Real.pi 2 = 2 ∧
      (max_lm [((0 : ℝ), 0)] [Real.pi] 2).2.getD 0 0
        ≠ spec_mmax1 ((0 : ℝ), 0) Real.pi 2 := by
  have hpi := Real.pi_ne_zero
  have h1 : (max_lm [((0 : ℝ), 0)] [Real.pi] 2).2.getD 0 0
      = mmax1 ((0 : ℝ), 0) Real.pi 2 :=
    max_lm_snd_getD _ _ _ (by norm_num) rfl
  have h2 : mmax1 ((0 : ℝ), 0) Real.pi 2 = 4 := by
    rw [mmax1]
    have he : 2 * Real.pi * ((|((0 : ℝ), (0 : ℝ)).1| + 2) / Real.pi) = 4 := by
      rw [show |((0 : ℝ), (0 : ℝ)).1| = 0 from abs_zero]
      field_simp
      ring
    rw [he, show (4 : ℝ) = ((4 : ℤ) : ℝ) from by norm_num, Int.ceil_intCast]
  have h3 : spec_mmax1 ((0 : ℝ), 0) Real.pi 2 = 2 := by
    rw [spec_mmax1]
    have he : 2 * Real.pi * ((|((0 : ℝ), (0 : ℝ)).1| + 2 / 2) / Real.pi) = 2 := by
      rw [show |((0 : ℝ), (0 : ℝ)).1| = 0 from abs_zero]
      field_simp
    rw [he, show (2 : ℝ) = ((2 : ℤ) : ℝ) from by norm_num, Int.ceil_intCast]
  refine ⟨h1.trans h2, h3, ?_⟩
  rw [h1.trans h2, h3]
  omega

/-- C4 (amended): `max_lm` is the pure elementwise map computing, at every
broadcast index, mmax = ceil(2 pi (|u| + width) / wavelength) with the FULL
receiver width (not width/2), and lmax = ceil(sqrt(mmax^2 +
(2 pi v / wavelength)^2)). -/
theorem max_lm_formula (bs : List (ℝ × ℝ)) (ws : List ℝ) (w : ℝ) {i : ℕ}
    (hi : i < bs.length) (hlen : bs.length = ws.length) :
    (max_lm bs ws w).2.getD i 0
        = ⌈2 * Real.pi * ((|(bs.getD i (0, 0)).1| + w) / ws.getD i 0)⌉ ∧
      (max_lm bs ws w).1.getD i 0
        = ⌈Real.sqrt ((((max_lm bs ws w).2.getD i 0 : ℤ) : ℝ) ^ 2
            + (2 * Real.pi * (|(bs.getD i (0, 0)).2| / ws.getD i 0)) ^ 2)⌉ := by
  refine ⟨max_lm_snd_getD bs ws w hi hlen, ?_⟩
  rw [max_lm_fst_getD bs ws w hi hlen, max_lm_snd_getD bs ws w hi hlen]
  rfl

/-- C4 witness: the elementwise formula applied to a single zero baseline at
wavelength 1 and width 0. -/
theorem max_lm_formula_witness :
    (0 < 1) ∧
      ((max_lm [((0 : ℝ), 0)] [(1 : ℝ)] 0).2.getD 0 0
          = ⌈2 * Real.pi * ((|(([((0 : ℝ), 0)]).getD 0 (0, 0)).1| + 0)
              / ([(1 : ℝ)]).getD 0 0)⌉ ∧
        (max_lm [((0 : ℝ), 0)] [(1 : ℝ)] 0).1.getD 0 0
          = ⌈Real.sqrt ((((max_lm [((0 : ℝ), 0)] [(1 : ℝ)] 0).2.getD 0 0 : ℤ) : ℝ) ^ 2
              + (2 * Real.pi * (|(([((0 : ℝ), 0)]).getD 0 (0, 0)).2|
                / ([(1 : ℝ)]).getD 0 0)) ^ 2)⌉) :=
  ⟨by norm_num, max_lm_formula [((0 : ℝ), 0)] [(1 : ℝ)] 0 (by norm_num) rfl⟩

/-! ## Output side length of transfer_matrices (cylinder.py lines 205-217,
282-287) -/

/-- `self.wavelengths[-1]` (numpy raises on an empty array; the embedding
returns 0 there). -/
def lastD (ws : List ℝ) : ℝ := (ws.getLast?).getD 0

/-- `.max()` of an integer numpy array (numpy raises on an empty array; the
embedding returns 0 there). -/
def npMax : List ℤ → ℤ
  | [] => 0
  | [a] => a
  | a :: b :: t => max a (npMax (b :: t))

theorem le_npMax_of_mem {a : ℤ} : ∀ {l : List ℤ}, a ∈ l → a ≤ npMax l
  | [], h => by cases h
  | [x], h => by
    rw [List.mem_singleton] at h
    rw [h, npMax]
  | x :: y :: t, h => by
    rw [npMax]
    rcases List.mem_cons.mp h with h1 | h2
    · exact h1 ▸ le_max_left _ _
    · exact le_trans (le_npMax_of_mem h2) (le_max_right _ _)

theorem npMax_le {c : ℤ} : ∀ {l : List ℤ}, l ≠ [] → (∀ a ∈ l, a ≤ c) → npMax l ≤ c
  | [], h, _ => absurd rfl h
  | [x], _, hb => by
    rw [npMax]
    exact hb x (List.mem_singleton_self x)
  | x :: y :: t, _, hb => by
    rw [npMax]
    apply max_le (hb x (List.mem_cons_self _ _))
    exact npMax_le (by simp) fun a ha => hb a (List.mem_cons_of_mem _ ha)

theorem zipWith_replicate_right {a b c : Type} (f : a → b → c) (l : List a) (x : b) :
    List.zipWith f l (List.replicate l.length x) = l.map fun v => f v x := by
  induction l with
  | nil => rfl
  | cons v t ih => simp [List.replicate_succ, ih]

/-- `TransitTelescope.lmax` (cylinder.py lines 207-211): the maximum of the
per-baseline `lmax` over all baselines, evaluated at the LAST wavelength
(and, unlike the per-request bandlimits, NOT doubled). -/
noncomputable def telescope_lmax (bs : List (ℝ × ℝ)) (ws : List ℝ) (width : ℝ) : ℤ :=
  npMax (max_lm bs (List.replicate bs.length (lastD ws)) width).1

/-- The doubled per-pair `lmax` array computed by `transfer_matrices`
(cylinder.py lines 284-285) for the requested baseline and frequency
indices. -/
noncomputable def pair_lmax_doubled (bs : List (ℝ × ℝ)) (ws : List ℝ) (width : ℝ)
    (bl f : List ℤ) : List ℤ :=
  ((max_lm (bl.map fun i => bs.getD i.toNat (0, 0))
      (f.map fun j => ws.getD j.toNat 0) width).1).map fun x => x * 2

/-- The output side length `lside` selected by `transfer_matrices`
(cylinder.py line 287). -/
noncomputable def transfer_lside (bs : List (ℝ × ℝ)) (ws : List ℝ) (width : ℝ)
    (bl f : List ℤ) (global_lmax : Bool) : ℤ :=
  if global_lmax then telescope_lmax bs ws width
  else npMax (pair_lmax_doubled bs ws width bl f)

/-- C1 (counterexample): for the telescope with a single zero baseline,
width 1 and single wavelength 2 pi, requesting the only (baseline,
frequency) pair yields subset side length 2 but global side length 1 - the
global-mode output is SMALLER, because the per-pair bandlimit is doubled
while the telescope-wide `self.lmax` is not. -/
theorem transfer_lside_counterexample :
    transfer_lside [((0 : ℝ), 0)] [2 * Real.pi] 1 [(0 : ℤ)] [(0 : ℤ)] true = 1 ∧
      transfer_lside [((0 : ℝ), 0)] [2 * Real.pi] 1 [(0 : ℤ)] [(0 : ℤ)] false = 2 ∧
      ¬(transfer_lside [((0 : ℝ), 0)] [2 * Real.pi] 1 [(0 : ℤ)] [(0 : ℤ)] false
          ≤ transfer_lside [((0 : ℝ), 0)] [2 * Real.pi] 1 [(0 : ℤ)] [(0 : ℤ)] true) := by
  have hm : mmax1 ((0 : ℝ), 0) (2 * Real.pi) 1 = 1 := by
    rw [mmax1]
    have he : 2 * Real.pi * ((|((0 : ℝ), (0 : ℝ)).1| + 1) / (2 * Real.pi)) = 1 := by
      rw [show |((0 : ℝ), (0 : ℝ)).1| = 0 from abs_zero]
      have := Real.pi_ne_zero
      field_simp
    rw [he, Int.ceil_one]
  have hl : lmax1 ((0 : ℝ), 0) (2 * Real.pi) 1 = 1 := by
    rw [lmax1, hm]
    have he : ((1 : ℤ) : ℝ) ^ 2
        + (2 * Real.pi * (|((0 : ℝ), (0 : ℝ)).2| / (2 * Real.pi))) ^ 2 = 1 := by
      rw [show |((0 : ℝ), (0 : ℝ)).2| = 0 from abs_zero]
      norm_num
    rw [he, Real.sqrt_one, Int.ceil_one]
  have htl : telescope_lmax [((0 : ℝ), 0)] [2 * Real.pi] 1 = 1 := by
    rw [telescope_lmax, show lastD [2 * Real.pi] = 2 * Real.pi from by simp [lastD]]
    show npMax (max_lm [((0 : ℝ), 0)] [2 * Real.pi] 1).1 = 1
    rw [max_lm_eq_zipWith]
    show npMax [lmax1 ((0 : ℝ), 0) (2 * Real.pi) 1] = 1
    rw [hl]
    rfl
  have hloc : pair_lmax_doubled [((0 : ℝ), 0)] [2 * Real.pi] 1 [(0 : ℤ)] [(0 : ℤ)]
      = [2] := by
    rw [pair_lmax_doubled]
    rw [show ([(0 : ℤ)].map fun i =>
        ([((0 : ℝ), 0)]).getD i.toNat ((0 : ℝ), (0 : ℝ))) = [((0 : ℝ), 0)] from rfl]
    rw [show ([(0 : ℤ)].map fun j => ([2 * Real.pi]).getD j.toNat 0)
      = [2 * Real.pi] from rfl]
    rw [max_lm_eq_zipWith]
    show [lmax1 ((0 : ℝ), 0) (2 * Real.pi) 1 * 2] = [2]
    rw [hl]
    norm_num
  refine ⟨?_, ?_, ?_⟩
  · rw [transfer_lside, if_pos rfl, htl]
  · rw [transfer_lside, if_neg Bool.false_ne_true, hloc]
    rfl
  · rw [transfer_lside, transfer_lside, if_pos rfl, if_neg Bool.false_ne_true,
      htl, hloc]
    show ¬(npMax [2] ≤ 1)
    rw [show npMax [2] = 2 from rfl]
    omega

/-- C1 (amended): with positive wavelengths whose last entry is the minimum
(as holds for the default increasing frequency grid), a non-negative width
and valid indices, the subset-mode side length never exceeds TWICE the
global-mode side length: the doubling of the per-pair bandlimits is exactly
what can make the subset output larger. -/
theorem transfer_lside_le (bs : List (ℝ × ℝ)) (ws : List ℝ) (w : ℝ) (bl f : List ℤ)
    (hbl : bl ≠ []) (hlen : bl.length = f.length)
    (hblv : ∀ i ∈ bl, 0 ≤ i ∧ i.toNat < bs.length)
    (hfv : ∀ j ∈ f, 0 ≤ j ∧ j.toNat < ws.length)
    (hws : ∀ wl ∈ ws, 0 < wl)
    (hlast : ∀ wl ∈ ws, lastD ws ≤ wl)
    (hw : 0 ≤ w) :
    transfer_lside bs ws w bl f false ≤ 2 * transfer_lside bs ws w bl f true := by
  rw [transfer_lside, transfer_lside, if_neg Bool.false_ne_true, if_pos rfl]
  have hfne : f ≠ [] := by
    intro hEq
    rw [hEq] at hlen
    simp at hlen
    exact hbl hlen
  obtain ⟨j0, hj0⟩ := List.exists_mem_of_ne_nil f hfne
  have hwsne : ws ≠ [] := by
    intro hEq
    have := (hfv j0 hj0).2
    rw [hEq] at this
    simp at this
  have hlastmem : lastD ws ∈ ws := by
    rw [lastD, List.getLast?_eq_getLast _ hwsne]
    exact List.getLast_mem hwsne
  have hlastpos : 0 < lastD ws := hws _ hlastmem
  have htl : (max_lm bs (List.replicate bs.length (lastD ws)) w).1
      = bs.map fun b => lmax1 b (lastD ws) w := by
    rw [max_lm_eq_zipWith]
    exact zipWith_replicate_right _ _ _
  have hne : pair_lmax_doubled bs ws w bl f ≠ [] := by
    rw [pair_lmax_doubled]
    intro hemp
    rw [List.map_eq_nil_iff] at hemp
    have hemp2 : (max_lm (bl.map fun i => bs.getD i.toNat (0, 0))
        (f.map fun j => ws.getD j.toNat 0) w).1.length = 0 := by
      rw [hemp]
      rfl
    rw [max_lm_eq_zipWith] at hemp2
    have : (List.zipWith (fun b wl => lmax1 b wl w) (bl.map fun i => bs.getD i.toNat (0, 0))
        (f.map fun j => ws.getD j.toNat 0)).length = 0 := hemp2
    rw [List.length_zipWith, List.length_map, List.length_map] at this
    have hblz : bl.length = 0 := by omega
    exact hbl (List.eq_nil_of_length_eq_zero hblz)
  apply npMax_le hne
  intro x hx
  rw [pair_lmax_doubled, List.mem_map] at hx
  obtain ⟨y, hy, rfl⟩ := hx
  replace hy : y ∈ List.zipWith (fun b wl => lmax1 b wl w)
      (bl.map fun i => bs.getD i.toNat (0, 0))
      (f.map fun j => ws.getD j.toNat 0) := by
    rw [max_lm_eq_zipWith] at hy
    exact hy
  rw [List.mem_iff_getElem] at hy
  obtain ⟨t, ht, hyt⟩ := hy
  have htb : t < bl.length := by
    rw [List.length_zipWith, List.length_map, List.length_map] at ht
    omega
  have htf : t < f.length := by omega
  rw [List.getElem_zipWith, List.getElem_map, List.getElem_map] at hyt
  have hbi : bl[t] ∈ bl := List.getElem_mem _
  have hvi := hblv _ hbi
  have hfj : f[t] ∈ f := List.getElem_mem _
  have hvj := hfv _ hfj
  have hbmem : bs.getD (bl[t]).toNat (0, 0) ∈ bs := by
    rw [List.getD_eq_getElem _ _ hvi.2]
    exact List.getElem_mem _
  have hwmem : ws.getD (f[t]).toNat 0 ∈ ws := by
    rw [List.getD_eq_getElem _ _ hvj.2]
    exact List.getElem_mem _
  have hchain : y ≤ telescope_lmax bs ws w := by
    rw [← hyt]
    calc lmax1 (bs.getD (bl[t]).toNat (0, 0)) (ws.getD (f[t]).toNat 0) w
        ≤ lmax1 (bs.getD (bl[t]).toNat (0, 0)) (lastD ws) w :=
          lmax1_anti hlastpos (hlast _ hwmem) hw
      _ ≤ telescope_lmax bs ws w := by
          rw [telescope_lmax, htl]
          exact le_npMax_of_mem (List.mem_map.mpr ⟨_, hbmem, rfl⟩)
  linarith

/-- C1 witness: the amended bound applied to a one-baseline, one-frequency
telescope with wavelength 1 and width 0, requesting the only pair. -/
theorem transfer_lside_le_witness :
    (∀ wl ∈ [(1 : ℝ)], 0 < wl) ∧ (∀ wl ∈ [(1 : ℝ)], lastD [(1 : ℝ)] ≤ wl) ∧
      transfer_lside [((0 : ℝ), 0)] [(1 : ℝ)] 0 [(0 : ℤ)] [(0 : ℤ)] false
        ≤ 2 * transfer_lside [((0 : ℝ), 0)] [(1 : ℝ)] 0 [(0 : ℤ)] [(0 : ℤ)] true := by
  refine ⟨by norm_num, by simp [lastD], ?_⟩
  apply transfer_lside_le
  · simp
  · rfl
  · intro i hi
    rw [List.mem_singleton] at hi
    subst hi
    exact ⟨le_refl 0, by norm_num⟩
  · intro j hj
    rw [List.mem_singleton] at hj
    subst hj
    exact ⟨le_refl 0, by norm_num⟩
  · intro wl hwl
    rw [List.mem_singleton] at hwl
    subst hwl
    norm_num
  · intro wl hwl
    rw [List.mem_singleton] at hwl
    subst hwl
    simp [lastD]
  · exact le_refl 0

/-! ## transfer_matrices: validation and processing order (cylinder.py
lines 247-304) -/

/-- `in_range(arr, min, max)` (cylinder.py lines 12-13): numpy
`(arr >= min).all() and (arr < max).all()`. -/
def in_range (arr : List ℤ) (lo hi : ℤ) : Bool :=
  (arr.all fun x => decide (lo ≤ x)) && (arr.all fun x => decide (x < hi))

/-- `out_of_range` (cylinder.py lines 15-16). -/
def out_of_range (arr : List ℤ) (lo hi : ℤ) : Bool := !(in_range arr lo hi)

/-- The two `Exception`s raised by `transfer_matrices` for invalid indices
(cylinder.py lines 276-280); the spec calls both `InvalidIndex`. -/
inductive TransferError : Type
  | invalidBaseline : TransferError
  | invalidFrequency : TransferError
deriving DecidableEq

/-- `np.argsort` of the flat integer key array: the indices 0..n-1 listed
in key-sorted order (the tie order numpy produces is irrelevant to the
claims: any key-sorted permutation of the indices realises them). -/
def argsort (keys : List ℤ) : List ℕ :=
  (List.range keys.length).mergeSort fun i j => decide (keys.getD i 0 ≤ keys.getD j 0)

/-- `TransitTelescope.transfer_matrices` (cylinder.py lines 247-304): index
validation (lines 276-280), doubled per-pair bandlimits (284-285), output
side length (287), then the kernel loop over `np.argsort(lmax.flat)`
(lines 296-302).  The polymorphic per-pair kernel `_transfer_single` is a
parameter; the value is the list of writes in processing order - (flat
pair index, doubled lmax handed to the kernel, kernel result) - or the
raised error. -/
noncomputable def transfer_matrices {β : Type} (bs : List (ℝ × ℝ)) (ws : List ℝ)
    (width : ℝ) (kernel : ℤ → ℤ → ℤ → ℤ → β) (bl f : List ℤ)
    (global_lmax : Bool) : Except TransferError (List (ℕ × ℤ × β)) :=
  if out_of_range bl 0 (bs.length : ℤ) then Except.error TransferError.invalidBaseline
  else if out_of_range f 0 (ws.length : ℤ) then Except.error TransferError.invalidFrequency
  else
    Except.ok ((argsort (pair_lmax_doubled bs ws width bl f)).map fun i =>
      (i, (pair_lmax_doubled bs ws width bl f).getD i 0,
        kernel (bl.getD i 0) (f.getD i 0) ((pair_lmax_doubled bs ws width bl f).getD i 0)
          (transfer_lside bs ws width bl f global_lmax)))

theorem out_of_range_iff (arr : List ℤ) (lo hi : ℤ) :
    out_of_range arr lo hi = true ↔ ∃ x ∈ arr, x < lo ∨ hi ≤ x := by
  rw [out_of_range, Bool.not_eq_true', Bool.eq_false_iff]
  rw [ne_eq, in_range, Bool.and_eq_true, List.all_eq_true, List.all_eq_true]
  constructor
  · intro h
    rw [not_and_or] at h
    rcases h with h1 | h2
    · push_neg at h1
      obtain ⟨x, hx, hd⟩ := h1
      rw [Ne, decide_eq_true_eq] at hd
      exact ⟨x, hx, Or.inl (by omega)⟩
    · push_neg at h2
      obtain ⟨x, hx, hd⟩ := h2
      rw [Ne, decide_eq_true_eq] at hd
      exact ⟨x, hx, Or.inr (by omega)⟩
  · intro ⟨x, hx, hor⟩ ⟨h1, h2⟩
    rcases hor with hlt | hge
    · have := h1 x hx
      rw [decide_eq_true_eq] at this
      omega
    · have := h2 x hx
      rw [decide_eq_true_eq] at this
      omega

/-- C5: if any requested baseline index lies outside [0, nbase) or any
frequency index outside [0, nfreq), `transfer_matrices` raises the fatal
index error before any computation: the result is the error value and no
write is produced. -/
theorem transfer_matrices_invalid {β : Type} (bs : List (ℝ × ℝ)) (ws : List ℝ)
    (width : ℝ) (kernel : ℤ → ℤ → ℤ → ℤ → β) (bl f : List ℤ) (g : Bool)
    (h : (∃ i ∈ bl, i < 0 ∨ (bs.length : ℤ) ≤ i)
      ∨ (∃ j ∈ f, j < 0 ∨ (ws.length : ℤ) ≤ j)) :
    (∃ e, transfer_matrices bs ws width kernel bl f g = Except.error e) ∧
      (transfer_matrices bs ws width kernel bl f g).toOption.getD [] = [] := by
  by_cases hb : out_of_range bl 0 (bs.length : ℤ) = true
  · rw [transfer_matrices, if_pos hb]
    exact ⟨⟨_, rfl⟩, rfl⟩
  · have hf : out_of_range f 0 (ws.length : ℤ) = true := by
      rcases h with h1 | h2
      · exact absurd ((out_of_range_iff _ _ _).mpr h1) hb
      · exact (out_of_range_iff _ _ _).mpr h2
    rw [transfer_matrices, if_neg hb, if_pos hf]
    exact ⟨⟨_, rfl⟩, rfl⟩

/-- C5 witness: requesting baseline index 5 of a one-baseline telescope
errors out with no writes. -/
theorem transfer_matrices_invalid_witness :
    (∃ i ∈ [(5 : ℤ)], i < 0 ∨ (([((0 : ℝ), 0)].length : ℕ) : ℤ) ≤ i) ∧
      (∃ e, transfer_matrices [((0 : ℝ), 0)] [(1 : ℝ)] 0 (fun _ _ _ _ => (0 : ℤ))
          [(5 : ℤ)] [(0 : ℤ)] true = Except.error e) ∧
      (transfer_matrices [((0 : ℝ), 0)] [(1 : ℝ)] 0 (fun _ _ _ _ => (0 : ℤ))
          [(5 : ℤ)] [(0 : ℤ)] true).toOption.getD [] = [] :=
  ⟨⟨5, by norm_num, by norm_num⟩,
    transfer_matrices_invalid [((0 : ℝ), 0)] [(1 : ℝ)] 0 (fun _ _ _ _ => (0 : ℤ))
      [(5 : ℤ)] [(0 : ℤ)] true (Or.inl ⟨5, by norm_num, by norm_num⟩)⟩

theorem argsort_key_sorted (keys : List ℤ) :
    List.Sorted (fun x y => x ≤ y) ((argsort keys).map fun i => keys.getD i 0) := by
  have hs : List.Pairwise
      (fun a b => (fun i j => decide (keys.getD i 0 ≤ keys.getD j 0)) a b = true)
      ((List.range keys.length).mergeSort
        fun i j => decide (keys.getD i 0 ≤ keys.getD j 0)) :=
    List.sorted_mergeSort
      (by
        intro a b c hab hbc
        rw [decide_eq_true_eq] at hab hbc ⊢
        omega)
      (by
        intro a b
        rw [Bool.or_eq_true, decide_eq_true_eq, decide_eq_true_eq]
        omega)
      (List.range keys.length)
  rw [argsort]
  exact List.Pairwise.map _ (fun a b hab => by
    rw [decide_eq_true_eq] at hab
    exact hab) hs

/-- C7: on a valid request, `transfer_matrices` succeeds and invokes the
kernel on the requested pairs in ascending order of their per-pair
bandlimit: the sequence of bandlimits in processing order is
non-decreasing. -/
theorem transfer_matrices_sorted {β : Type} (bs : List (ℝ × ℝ)) (ws : List ℝ)
    (width : ℝ) (kernel : ℤ → ℤ → ℤ → ℤ → β) (bl f : List ℤ) (g : Bool)
    (hb : out_of_range bl 0 (bs.length : ℤ) = false)
    (hf : out_of_range f 0 (ws.length : ℤ) = false) :
    ∃ wr, transfer_matrices bs ws width kernel bl f g = Except.ok wr ∧
      List.Sorted (fun x y => x ≤ y) (wr.map fun e => e.2.1) := by
  rw [transfer_matrices, if_neg (by rw [hb]; exact Bool.false_ne_true),
    if_neg (by rw [hf]; exact Bool.false_ne_true)]
  refine ⟨_, rfl, ?_⟩
  rw [List.map_map]
  exact argsort_key_sorted (pair_lmax_doubled bs ws width bl f)

/-- C7 witness: the ordering theorem applied to a valid one-pair request. -/
theorem transfer_matrices_sorted_witness :
    out_of_range [(0 : ℤ)] 0 (([((0 : ℝ), 0)].length : ℕ) : ℤ) = false ∧
      out_of_range [(0 : ℤ)] 0 (([(1 : ℝ)].length : ℕ) : ℤ) = false ∧
      ∃ wr, transfer_matrices [((0 : ℝ), 0)] [(1 : ℝ)] 0 (fun _ _ _ _ => (0 : ℤ))
          [(0 : ℤ)] [(0 : ℤ)] true = Except.ok wr ∧
        List.Sorted (fun x y => x ≤ y) (wr.map fun e => e.2.1) :=
  ⟨rfl, rfl,
    transfer_matrices_sorted [((0 : ℝ), 0)] [(1 : ℝ)] 0 (fun _ _ _ _ => (0 : ℤ))
      [(0 : ℤ)] [(0 : ℤ)] true rfl rfl⟩

/-! ## Polarised buffer layout and insert (cylinder.py lines 578-614) -/

/-- `PolarisedTelescope._make_matrix_array` (cylinder.py lines 607-608):
the shape tuple of the allocated zero buffer
`np.zeros(shape + (3, 3, lmax + 1, 2 * lmax + 1))`. -/
def polarised_matrix_shape (shape : List ℕ) (lmax : ℕ) : List ℕ :=
  shape ++ [3, 3, lmax + 1, 2 * lmax + 1]

/-- The value returned by `PolarisedTelescope._transfer_single` (cylinder.py
lines 578-604): the list `[btransxx, btransxy, btransyy]`, each element
itself the (T, E, B) component triple produced by `sphtrans_complex_pol`,
read as a function `tsingle[pi][pj]` of the two tensor indices. -/
def polarised_transfer_single {β : Type} (btransxx btransxy btransyy : Fin 3 → β)
    (pi2 pj : Fin 3) : β :=
  if pi2 = 0 then btransxx pj else if pi2 = 1 then btransxy pj else btransyy pj

/-- `PolarisedTelescope._copy_single_into_array` (cylinder.py lines
610-614): the double loop `for pi in range(3): for pj in range(3):
tarray[ind + (pi, pj) + (:, :)] = tsingle[pi][pj]` over the buffer viewed
as a map from entry positions to 3 x 3 tensors of harmonic blocks. -/
def polarised_copy_single_into_array {ι β : Type} [DecidableEq ι]
    (tarray : ι → Fin 3 → Fin 3 → β) (tsingle : Fin 3 → Fin 3 → β) (ind : ι) :
    ι → Fin 3 → Fin 3 → β :=
  fun i pi2 pj => if i = ind then tsingle pi2 pj else tarray i pi2 pj

/-- C6 (counterexample): writing a kernel result whose blocks all equal 1
into an all-zero buffer puts 1 into tensor slot (1, 0) of the written
entry - a slot outside the set {xx at (0,0), xy at (0,1), yy at (1,1)}
that the claim says is never populated and stays at its initial zero. -/
theorem polarised_copy_counterexample :
    polarised_copy_single_into_array (fun (_ : Unit) _ _ => (0 : ℤ))
        (polarised_transfer_single (fun _ => 1) (fun _ => 1) (fun _ => 1)) () () 1 0
      = 1 ∧
      ((1 : Fin 3), (0 : Fin 3)) ∉ [((0 : Fin 3), (0 : Fin 3)), (0, 1), (1, 1)] ∧
      polarised_copy_single_into_array (fun (_ : Unit) _ _ => (0 : ℤ))
        (polarised_transfer_single (fun _ => 1) (fun _ => 1) (fun _ => 1)) () () 1 0
      ≠ 0 := by
  refine ⟨rfl, by decide, by decide⟩

/-- C6 (amended): the polarised buffer tensor shape is broadcast-shape ++
(3, 3, lside+1, 2*lside+1), and the insert at a position overwrites ALL
NINE tensor slots there: slot (pi, pj) receives polarisation component pj
of beam product pi (xx, xy, yy in that order); every other position of the
buffer is left unchanged. -/
theorem polarised_copy_writes_all {ι β : Type} [DecidableEq ι] (shape : List ℕ)
    (lmax : ℕ) (tarray : ι → Fin 3 → Fin 3 → β) (xx xy yy : Fin 3 → β) (ind : ι) :
    polarised_matrix_shape shape lmax = shape ++ [3, 3, lmax + 1, 2 * lmax + 1] ∧
      (∀ pj, polarised_copy_single_into_array tarray
            (polarised_transfer_single xx xy yy) ind ind 0 pj = xx pj ∧
          polarised_copy_single_into_array tarray
            (polarised_transfer_single xx xy yy) ind ind 1 pj = xy pj ∧
          polarised_copy_single_into_array tarray
            (polarised_transfer_single xx xy yy) ind ind 2 pj = yy pj) ∧
      (∀ i, i ≠ ind → ∀ pi2 pj, polarised_copy_single_into_array tarray
          (polarised_transfer_single xx xy yy) ind i pi2 pj = tarray i pi2 pj) := by
  refine ⟨rfl, fun pj => ⟨?_, ?_, ?_⟩, fun i hi pi2 pj => ?_⟩
  · show (if ind = ind then polarised_transfer_single xx xy yy 0 pj
        else tarray ind 0 pj) = xx pj
    rw [if_pos rfl]
    rfl
  · show (if ind = ind then polarised_transfer_single xx xy yy 1 pj
        else tarray ind 1 pj) = xy pj
    rw [if_pos rfl]
    rfl
  · show (if ind = ind then polarised_transfer_single xx xy yy 2 pj
        else tarray ind 2 pj) = yy pj
    rw [if_pos rfl]
    rfl
  · show (if i = ind then polarised_transfer_single xx xy yy pi2 pj
        else tarray i pi2 pj) = tarray i pi2 pj
    rw [if_neg hi]

/-- C6 witness: the frame half of the amended theorem applied at a
two-position buffer, reading back the untouched position. -/
theorem polarised_copy_writes_all_witness :
    (false ≠ true) ∧
      polarised_copy_single_into_array (fun (_ : Bool) _ _ => (0 : ℤ))
        (polarised_transfer_single (fun _ => 1) (fun _ => 2) (fun _ => 3)) true
        false 0 0 = 0 :=
  ⟨by decide,
    (polarised_copy_writes_all [] 0 (fun (_ : Bool) _ _ => (0 : ℤ))
      (fun _ => 1) (fun _ => 2) (fun _ => 3) true).2.2 false (by decide) 0 0⟩

/-- C2 (failing input): `map_half_plane` sends (0, 1/2) and its negation to
different representatives, and folding twice differs from folding once,
contradicting the claimed negation-invariance and idempotence (and the
source comment above `_get_unique`, which promises that a baseline and its
negative are identified). -/
theorem map_half_plane_not_involutive :
    map_half_plane [((0 : ℚ), 1/2)] = [((0 : ℚ), -(1/2))] ∧
    map_half_plane [((0 : ℚ), -(1/2))] = [((0 : ℚ), 1/2)] ∧
    map_half_plane (map_half_plane [((0 : ℚ), 1/2)])
      ≠ map_half_plane [((0 : ℚ), 1/2)] := by
  refine ⟨?_, ?_, ?_⟩ <;>
    norm_num [map_half_plane, halfPlaneStep1, halfPlaneStep2, Prod.ext_iff]

end Driftscan
